import Mathlib

set_option maxRecDepth 100000

/-!
Verification development for the multiplexed connection layer
(`p2p/connection.go`): a shallow embedding of the packet codec, the
per-channel send/receive state machine, the packet scheduler of
`sendPacket`, and the error-handling flags of `MConnection`, together
with theorems settling the specification claims.

Machine integers are embedded as `Nat` with explicit `% 2^32` where the
source uses wrapping `uint32` arithmetic (`sendQueueSize`).  Byte values
are embedded as `Nat` (with range hypotheses where a claim quantifies
over bytes).  Fallible operations thread an explicit error flag, exactly
as the Go code threads `*error` through the binary helpers.
-/

namespace TMConn

/-- Constants from the source (`const` block of connection.go). -/
def maxPacketSize : ℕ := 1024

/-- Per-channel send queue capacity (`defaultSendQueueCapacity`). -/
def defaultSendQueueCapacity : ℕ := 1

/-- Packet type byte for ping. -/
def packetTypePing : ℕ := 0x00

/-- Packet type byte for pong. -/
def packetTypePong : ℕ := 0x01

/-- Packet type byte for message packets. -/
def packetTypeMessage : ℕ := 0x10

/-- Modulus of the wrapping `uint32` arithmetic used for `sendQueueSize`. -/
def u32Mod : ℕ := 4294967296

/-- Modelled from the spec: the byte-slice length prefix written by the
`binary` package helpers (`WriteByteSlice` / `ReadByteSlice`, not under
`src/`): a variable-length unsigned count followed by the raw bytes.
Encoded here as a base-128 varint, low group first, high bit marking a
continuation byte.  Fuel recursion keeps the definition reducible by the
kernel; `fuel = n` always suffices. -/
def encUvarintFuel : ℕ → ℕ → List ℕ
  | 0, n => [n % 128]
  | fuel + 1, n =>
    if n < 128 then [n] else (n % 128 + 128) :: encUvarintFuel fuel (n / 128)

/-- Modelled from the spec: encoding of an unsigned byte count. -/
def encUvarint (n : ℕ) : List ℕ := encUvarintFuel n n

/-- Modelled from the spec: decoding of the unsigned varint byte count.
Returns the count and the remaining input, or `none` on truncation. -/
def decUvarint : List ℕ → Option (ℕ × List ℕ)
  | [] => none
  | b :: rest =>
    if b < 128 then some (b, rest)
    else
      match decUvarint rest with
      | some (m, r) => some ((b - 128) + 128 * m, r)
      | none => none

theorem decUvarint_encFuel (fuel : ℕ) :
    ∀ n rest, n ≤ fuel →
      decUvarint (encUvarintFuel fuel n ++ rest) = some (n, rest) := by
  induction fuel with
  | zero =>
    intro n rest hn
    interval_cases n
    simp [encUvarintFuel, decUvarint]
  | succ fuel ih =>
    intro n rest hn
    by_cases h : n < 128
    · simp [encUvarintFuel, h, decUvarint]
    · have hdiv : n / 128 ≤ fuel := by omega
      have := ih (n / 128) rest hdiv
      simp only [encUvarintFuel, h, if_false, List.cons_append, decUvarint]
      have hb : ¬ (n % 128 + 128 < 128) := by omega
      simp only [hb, if_false, this]
      have : n % 128 + 128 - 128 + 128 * (n / 128) = n := by omega
      rw [this]

theorem decUvarint_enc (n : ℕ) (rest : List ℕ) :
    decUvarint (encUvarint n ++ rest) = some (n, rest) :=
  decUvarint_encFuel n n rest le_rfl

/-- The on-wire unit (struct `packet`): channel id, EOF marker, payload. -/
structure Packet where
  chId : ℕ
  eof : ℕ
  bytes : List ℕ
  deriving DecidableEq

/-- The buffered writer (`bufio.Writer`): the bytes accepted so far, and a
flag describing a broken underlying transport (every write fails). -/
structure BWriter where
  buf : List ℕ
  broken : Bool
  deriving DecidableEq

/-- Writer-side state threaded exactly as the Go helpers thread
`(w, *n, *err)`: the writer, the running byte count, the sticky error. -/
abbrev WSt := BWriter × ℕ × Bool

/-- Modelled from the spec: `WriteByte` of the `binary` package (not under
`src/`): no-op once the error is set, otherwise write one byte and add 1
to the running count. -/
def writeByteM (st : WSt) (b : ℕ) : WSt :=
  match st with
  | (w, n, e) =>
    if e then (w, n, e)
    else if w.broken then (w, n, true)
    else (⟨w.buf ++ [b], false⟩, n + 1, false)

/-- Modelled from the spec: `WriteByteSlice` of the `binary` package (not
under `src/`): a variable-length unsigned count followed by the raw
bytes. -/
def writeByteSliceM (st : WSt) (bs : List ℕ) : WSt :=
  match st with
  | (w, n, e) =>
    if e then (w, n, e)
    else if w.broken then (w, n, true)
    else (⟨w.buf ++ encUvarint bs.length ++ bs, false⟩,
          n + ((encUvarint bs.length).length + bs.length), false)

/-- `packet.WriteTo` (connection.go lines 552-557): channel id byte, EOF
byte, then the length-prefixed payload. -/
def Packet.writeTo (p : Packet) (st : WSt) : WSt :=
  writeByteSliceM (writeByteM (writeByteM st p.chId) p.eof) p.bytes

/-- Reader-side state: remaining input, running byte count, sticky error. -/
abbrev RSt := List ℕ × ℕ × Bool

/-- Modelled from the spec: `ReadByte` of the `binary` package (not under
`src/`): no-op once the error is set; reading from an exhausted stream
sets the error and yields the zero byte. -/
def readByteM (st : RSt) : ℕ × RSt :=
  match st with
  | (input, n, e) =>
    if e then (0, (input, n, e))
    else
      match input with
      | [] => (0, (input, n, true))
      | b :: rest => (b, (rest, n + 1, false))

/-- Modelled from the spec: `ReadByteSlice` of the `binary` package (not
under `src/`): read the unsigned varint count, then that many raw bytes;
truncation sets the error. -/
def readByteSliceM (st : RSt) : List ℕ × RSt :=
  match st with
  | (input, n, e) =>
    if e then ([], (input, n, e))
    else
      match decUvarint input with
      | none => ([], (input, n, true))
      | some (len, rest) =>
        if len ≤ rest.length then
          (rest.take len,
           (rest.drop len, n + (input.length - rest.length) + len, false))
        else ([], (input, n, true))

/-- `readPacketSafe` (connection.go lines 563-569): channel id byte, EOF
byte, then the length-prefixed payload; errors are threaded, never
inspected mid-way. -/
def readPacketSafe (input : List ℕ) : Packet × RSt :=
  let r1 := readByteM (input, 0, false)
  let r2 := readByteM r1.2
  let r3 := readByteSliceM r2.2
  (⟨r1.1, r2.1, r3.1⟩, r3.2)

theorem packet_writeTo_ok (p : Packet) (w : BWriter) (n : ℕ)
    (hw : w.broken = false) :
    p.writeTo (w, n, false) =
      (⟨w.buf ++ [p.chId, p.eof] ++ encUvarint p.bytes.length ++ p.bytes,
        false⟩,
       n + (2 + ((encUvarint p.bytes.length).length + p.bytes.length)),
       false) := by
  simp only [Packet.writeTo, writeByteM, writeByteSliceM, hw, if_false,
    Bool.false_eq_true]
  simp [List.append_assoc]
  omega

/-- Decoding the serialized form of any packet recovers the packet,
consumes the whole encoding, and reports no error. -/
theorem readPacketSafe_writeTo (p : Packet) :
    readPacketSafe ((p.writeTo (⟨[], false⟩, 0, false)).1).buf =
      (p, ([], 2 + ((encUvarint p.bytes.length).length + p.bytes.length),
           false)) := by
  rw [packet_writeTo_ok p ⟨[], false⟩ 0 rfl]
  simp only [readPacketSafe, readByteM, readByteSliceM, List.nil_append,
    List.cons_append, if_false, Bool.false_eq_true]
  simp only [decUvarint_enc p.bytes.length p.bytes, le_refl, if_true,
    List.take_length, List.drop_length]
  have hlen : (encUvarint p.bytes.length ++ p.bytes).length - p.bytes.length
      = (encUvarint p.bytes.length).length := by
    simp [List.length_append]
  simp only [hlen]
  simp only [Prod.mk.injEq]
  exact ⟨trivial, trivial, by omega, trivial⟩

/-- C1.  Packet codec round trip: for every packet with byte-valued
`chId`, `eof ∈ {0, 1}` and a payload of at most `maxPacketSize` bytes,
serializing with `packet.WriteTo` and decoding the produced bytes with
`readPacketSafe` yields the identical packet, consumes the whole
encoding, and reports no error. -/
theorem c1_packet_roundtrip (p : Packet)
    (h1 : p.chId < 256) (h2 : p.eof = 0 ∨ p.eof = 1)
    (h3 : p.bytes.length ≤ maxPacketSize)
    (h4 : ∀ b ∈ p.bytes, b < 256) :
    readPacketSafe ((p.writeTo (⟨[], false⟩, 0, false)).1).buf =
      (p, ([], 2 + ((encUvarint p.bytes.length).length + p.bytes.length),
           false)) :=
  readPacketSafe_writeTo p

/-- Witness for C1 at a concrete packet. -/
theorem c1_packet_roundtrip_witness :
    readPacketSafe (((⟨3, 1, [7, 250]⟩ : Packet).writeTo
        (⟨[], false⟩, 0, false)).1).buf =
      ((⟨3, 1, [7, 250]⟩ : Packet),
       ([], 2 + ((encUvarint (2 : ℕ)).length + 2), false)) := by
  have h := c1_packet_roundtrip ⟨3, 1, [7, 250]⟩ (by decide) (by decide)
    (by decide) (by decide)
  simpa using h

/-- Per-channel state (struct `Channel`), restricted to the stateful
fields; the `conn` and `desc` back-references are configuration only.
`sendQueue` embeds the buffered Go channel as a FIFO list; the wrapping
`uint32` counter `sendQueueSize` is a `Nat` reduced `% u32Mod` at every
update. -/
structure Channel where
  id : ℕ
  sendQueue : List (List ℕ)
  sendQueueSize : ℕ
  recving : List ℕ
  sending : List ℕ
  priority : ℕ
  recentlySent : ℤ
  deriving DecidableEq

/-- `newChannel`: fresh channel for a descriptor (id, priority). -/
def newChannel (id pr : ℕ) : Channel :=
  ⟨id, [], 0, [], [], pr, 0⟩

/-- `Channel.sendBytes` (lines 445-448): blocking enqueue plus atomic
increment.  The blocking is represented by callers invoking this only
when the queue has room. -/
def sendBytes (ch : Channel) (bytes : List ℕ) : Channel :=
  { ch with sendQueue := ch.sendQueue ++ [bytes],
            sendQueueSize := (ch.sendQueueSize + 1) % u32Mod }

/-- `Channel.trySendBytes` (lines 453-461): non-blocking enqueue. -/
def trySendBytes (ch : Channel) (bytes : List ℕ) : Bool × Channel :=
  if ch.sendQueue.length < defaultSendQueueCapacity then
    (true, sendBytes ch bytes)
  else (false, ch)

/-- `Channel.loadSendQueueSize` (lines 464-466). -/
def loadSendQueueSize (ch : Channel) : ℕ := ch.sendQueueSize

/-- `Channel.canSend` (lines 470-472). -/
def canSend (ch : Channel) : Bool :=
  decide (loadSendQueueSize ch < defaultSendQueueCapacity)

/-- `Channel.isSendPending` (lines 477-485): if `sending` is empty and the
queue is non-empty, dequeue one message into `sending`; the returned flag
is the function result. -/
def isSendPendingStep (ch : Channel) : Bool × Channel :=
  if ch.sending.length = 0 then
    if ch.sendQueue.length = 0 then (false, ch)
    else (true, { ch with sending := ch.sendQueue.headI,
                          sendQueue := ch.sendQueue.tail })
  else (true, ch)

/-- `Channel.nextPacket` (lines 489-502): slice up to `maxPacketSize`
bytes off `sending`; on the final slice set EOF and decrement
`sendQueueSize` by adding `2^32 - 1` (wrapping decrement, exactly as
`atomic.AddUint32(&ch.sendQueueSize, ^uint32(0))`). -/
def nextPacketStep (ch : Channel) : Packet × Channel :=
  let bytes := ch.sending.take (min maxPacketSize ch.sending.length)
  if ch.sending.length ≤ maxPacketSize then
    (⟨ch.id, 1, bytes⟩,
     { ch with sending := [],
               sendQueueSize := (ch.sendQueueSize + (u32Mod - 1)) % u32Mod })
  else
    (⟨ch.id, 0, bytes⟩,
     { ch with sending := ch.sending.drop (min maxPacketSize ch.sending.length) })

/-- `Channel.writePacketTo` (lines 506-514): write the message type byte
followed by the next packet; note the source adds the written byte count
to `recentlySent` only when `err != nil`. -/
def writePacketTo (ch : Channel) (w : BWriter) : Channel × BWriter × ℕ × Bool :=
  let pc := nextPacketStep ch
  let st1 := writeByteM (w, 0, false) packetTypeMessage
  let st2 := pc.1.writeTo st1
  let ch2 :=
    if st2.2.2 then { pc.2 with recentlySent := pc.2.recentlySent + st2.2.1 }
    else pc.2
  (ch2, st2)

/-- `Channel.recvPacket` (lines 518-526): append the payload to `recving`;
on EOF = 1 deliver the accumulated buffer and reset `recving`. -/
def recvPacket (ch : Channel) (pkt : Packet) : Option (List ℕ) × Channel :=
  let recving2 := ch.recving ++ pkt.bytes
  if pkt.eof = 1 then (some recving2, { ch with recving := [] })
  else (none, { ch with recving := recving2 })

/-- Delivering a sequence of packets to one channel, collecting the
completed messages in order. -/
def recvSeq (ch : Channel) : List Packet → List (List ℕ) × Channel
  | [] => ([], ch)
  | p :: rest =>
    let r := recvPacket ch p
    let rr := recvSeq r.2 rest
    (r.1.toList ++ rr.1, rr.2)

theorem recvSeq_append (l1 l2 : List Packet) :
    ∀ ch : Channel,
      recvSeq ch (l1 ++ l2) =
        ((recvSeq ch l1).1 ++ (recvSeq (recvSeq ch l1).2 l2).1,
         (recvSeq (recvSeq ch l1).2 l2).2) := by
  induction l1 with
  | nil => intro ch; simp [recvSeq]
  | cons p rest ih =>
    intro ch
    simp only [List.cons_append, recvSeq, List.append_eq]
    rw [ih]
    simp [List.append_assoc]

theorem recvSeq_nonfinal (pre : List Packet) :
    ∀ ch : Channel, (∀ q ∈ pre, q.eof ≠ 1) →
      recvSeq ch pre =
        ([], { ch with
                recving := ch.recving ++
                  (pre.map Packet.bytes).foldr (· ++ ·) [] }) := by
  induction pre with
  | nil =>
    intro ch _
    simp [recvSeq]
  | cons p rest ih =>
    intro ch hq
    have hp : p.eof ≠ 1 := hq p (by simp)
    have hrest : ∀ q ∈ rest, q.eof ≠ 1 := fun q hqmem => hq q (by simp [hqmem])
    simp only [recvSeq, recvPacket, if_neg hp]
    rw [ih _ hrest]
    simp [List.append_assoc]

/-- C3.  `nextPacket` on a channel whose `sending` buffer has positive
length `L` emits a packet carrying the first `min(L, maxPacketSize)`
bytes of `sending` under the channel's id; when `L ≤ maxPacketSize` the
EOF byte is 1, `sending` becomes empty and `sendQueueSize` is decremented
by one in wrapping `uint32` arithmetic (an exact decrement whenever it
was positive); otherwise the EOF byte is 0, `sending` is advanced past
the emitted slice and `sendQueueSize` is unchanged. -/
theorem c3_nextPacket (ch : Channel)
    (hL : 0 < ch.sending.length) (hsz : ch.sendQueueSize < u32Mod) :
    (nextPacketStep ch).1.chId = ch.id ∧
    (nextPacketStep ch).1.bytes =
      ch.sending.take (min maxPacketSize ch.sending.length) ∧
    (ch.sending.length ≤ maxPacketSize →
      (nextPacketStep ch).1.eof = 1 ∧
      (nextPacketStep ch).2.sending = [] ∧
      (nextPacketStep ch).2.sendQueueSize =
        (ch.sendQueueSize + (u32Mod - 1)) % u32Mod ∧
      (0 < ch.sendQueueSize →
        (nextPacketStep ch).2.sendQueueSize = ch.sendQueueSize - 1)) ∧
    (maxPacketSize < ch.sending.length →
      (nextPacketStep ch).1.eof = 0 ∧
      (nextPacketStep ch).2.sending = ch.sending.drop maxPacketSize ∧
      (nextPacketStep ch).2.sendQueueSize = ch.sendQueueSize) := by
  by_cases h : ch.sending.length ≤ maxPacketSize
  · refine ⟨by simp [nextPacketStep, h], by simp [nextPacketStep, h],
      fun hle => ⟨by simp [nextPacketStep, h], by simp [nextPacketStep, h],
        by simp [nextPacketStep, h], fun hpos => ?_⟩,
      fun hgt => absurd h (by omega)⟩
    have hmod : (ch.sendQueueSize + (u32Mod - 1)) % u32Mod
        = ch.sendQueueSize - 1 := by
      simp only [u32Mod] at hsz ⊢
      omega
    simp [nextPacketStep, h, hmod]
  · have hmin : min maxPacketSize ch.sending.length = maxPacketSize := by
      omega
    exact ⟨by simp [nextPacketStep, h], by simp [nextPacketStep, h],
      fun hle => absurd hle h,
      fun hgt => ⟨by simp [nextPacketStep, h], by simp [nextPacketStep, h, hmin],
        by simp [nextPacketStep, h]⟩⟩

/-- Witness for C3: a one-byte message is emitted whole, with EOF set and
the queue size counter dropping from 1 to 0. -/
theorem c3_nextPacket_witness :
    (nextPacketStep ⟨1, [], 1, [], [7], 1, 0⟩).2.sendQueueSize = 0 ∧
    (nextPacketStep ⟨1, [], 1, [], [7], 1, 0⟩).1.bytes = [7] ∧
    (nextPacketStep ⟨1, [], 1, [], [7], 1, 0⟩).1.eof = 1 := by
  have h := c3_nextPacket ⟨1, [], 1, [], [7], 1, 0⟩ (by decide) (by decide)
  refine ⟨?_, by simpa using h.2.1, (h.2.2.1 (by decide)).1⟩
  have := (h.2.2.1 (by decide)).2.2.2 (by decide)
  simpa using this

/-- C4.  `recvPacket` appends the packet's payload to `recving`; when the
EOF byte is 1 it returns the full accumulated buffer and resets
`recving`, and otherwise returns no message while retaining the
accumulated bytes.  The third conjunct states the accumulation across a
whole fragment sequence: non-final fragments followed by a final one
deliver exactly the concatenation of every payload since the last
delivery. -/
theorem c4_recvPacket (ch : Channel) (pkt : Packet) :
    (pkt.eof = 1 →
      recvPacket ch pkt =
        (some (ch.recving ++ pkt.bytes), { ch with recving := [] })) ∧
    (pkt.eof ≠ 1 →
      recvPacket ch pkt =
        (none, { ch with recving := ch.recving ++ pkt.bytes })) ∧
    (∀ pre fin, (∀ q ∈ pre, q.eof ≠ 1) → fin.eof = 1 →
      recvSeq ch (pre ++ [fin]) =
        ([ch.recving ++ (pre.map Packet.bytes).foldr (· ++ ·) [] ++ fin.bytes],
         { ch with recving := [] })) := by
  refine ⟨fun h1 => by simp [recvPacket, h1],
          fun h1 => by simp [recvPacket, if_neg h1], ?_⟩
  intro pre fin hpre hfin
  rw [recvSeq_append, recvSeq_nonfinal pre ch hpre]
  simp [recvSeq, recvPacket, hfin, List.append_assoc]

/-- Witness for C4 at a concrete fragment sequence. -/
theorem c4_recvPacket_witness :
    recvSeq ⟨1, [], 0, [], [], 1, 0⟩
        ([⟨1, 0, [10, 11]⟩, ⟨1, 0, [12]⟩] ++ [⟨1, 1, [13]⟩]) =
      ([[10, 11] ++ [12] ++ [13]], ⟨1, [], 0, [], [], 1, 0⟩) := by
  have h := (c4_recvPacket ⟨1, [], 0, [], [], 1, 0⟩ ⟨1, 1, [13]⟩).2.2
    [⟨1, 0, [10, 11]⟩, ⟨1, 0, [12]⟩] ⟨1, 1, [13]⟩ (by decide) (by decide)
  simpa using h

/-- C7 fails as stated: dequeuing an empty message leaves `sending` empty
while `isSendPending` still returns true. -/
theorem c7_counterexample :
    (isSendPendingStep ⟨1, [[]], 1, [], [], 1, 0⟩).1 = true ∧
    (isSendPendingStep ⟨1, [[]], 1, [], [], 1, 0⟩).2.sending = [] := by
  decide

/-- C7 (amended).  `isSendPending` dequeues one message from the queue
into `sending` exactly when `sending` is empty and the queue is
non-empty, and it returns true iff `sending` or the queue was non-empty
at entry (so false exactly when both were empty).  The stated claim that
the result is true iff `sending` is non-empty afterwards fails only for
a dequeued empty message. -/
theorem c7_isSendPending (ch : Channel) :
    ((isSendPendingStep ch).1 = true ↔
      (ch.sending ≠ [] ∨ ch.sendQueue ≠ [])) ∧
    (ch.sending ≠ [] → isSendPendingStep ch = (true, ch)) ∧
    (ch.sending = [] → ch.sendQueue = [] → isSendPendingStep ch = (false, ch)) ∧
    (∀ m rest, ch.sending = [] → ch.sendQueue = m :: rest →
      isSendPendingStep ch =
        (true, { ch with sending := m, sendQueue := rest })) := by
  refine ⟨?_, ?_, ?_, ?_⟩
  · by_cases hs : ch.sending = []
    · by_cases hq : ch.sendQueue = []
      · simp [isSendPendingStep, hs, hq]
      · simp [isSendPendingStep, List.length_eq_zero, hs, hq]
    · simp [isSendPendingStep, List.length_eq_zero, hs]
  · intro h
    simp [isSendPendingStep, List.length_eq_zero, h]
  · intro h1 h2
    simp [isSendPendingStep, h1, h2]
  · intro m rest h1 h2
    simp [isSendPendingStep, h1, h2]

/-- Witness for C7 (amended) at a concrete dequeue. -/
theorem c7_isSendPending_witness :
    isSendPendingStep ⟨1, [[5]], 1, [], [], 1, 0⟩ =
      (true, ⟨1, [], 1, [], [5], 1, 0⟩) := by
  have h := (c7_isSendPending ⟨1, [[5]], 1, [], [], 1, 0⟩).2.2.2 [5] []
    (by decide) (by decide)
  simpa using h

/-- C9 fails as stated: a wire packet with EOF byte 2 decodes without
error and is processed by `recvPacket` as an ordinary non-final fragment,
and the receive dispatch does not treat it as fatal. -/
theorem c9_counterexample :
    (readPacketSafe (((⟨5, 2, [9]⟩ : Packet).writeTo
        (⟨[], false⟩, 0, false)).1).buf).1 = (⟨5, 2, [9]⟩ : Packet) ∧
    (readPacketSafe (((⟨5, 2, [9]⟩ : Packet).writeTo
        (⟨[], false⟩, 0, false)).1).buf).2.2.2 = false ∧
    recvPacket ⟨5, [], 0, [], [], 1, 0⟩ (⟨5, 2, [9]⟩ : Packet) =
      (none, ⟨5, [], 0, [9], [], 1, 0⟩) := by
  decide

/-- C9 (amended).  The EOF byte is not validated anywhere on the receive
path: `readPacketSafe` decodes a packet with any EOF byte without error,
and `recvPacket` treats every EOF value other than 1 as an ordinary
non-final fragment; no fatal condition is raised. -/
theorem c9_eof_not_validated (ch : Channel) (pkt : Packet)
    (h : pkt.eof ≠ 1) :
    recvPacket ch pkt =
      (none, { ch with recving := ch.recving ++ pkt.bytes }) ∧
    (readPacketSafe ((pkt.writeTo (⟨[], false⟩, 0, false)).1).buf).1 = pkt ∧
    (readPacketSafe ((pkt.writeTo (⟨[], false⟩, 0, false)).1).buf).2.2.2 =
      false := by
  refine ⟨by simp [recvPacket, h], ?_, ?_⟩
  · rw [readPacketSafe_writeTo pkt]
  · rw [readPacketSafe_writeTo pkt]

/-- Witness for C9 (amended) at EOF byte 7. -/
theorem c9_eof_not_validated_witness :
    recvPacket ⟨1, [], 0, [2], [], 1, 0⟩ (⟨1, 7, [3]⟩ : Packet) =
      (none, ⟨1, [], 0, [2, 3], [], 1, 0⟩) := by
  have h := (c9_eof_not_validated ⟨1, [], 0, [2], [], 1, 0⟩ ⟨1, 7, [3]⟩
    (by decide)).1
  simpa using h

/-- C10 fails in its permanence clause: after the wrap to `2^32 - 1` a
single successful enqueue wraps `sendQueueSize` back to 0 and `canSend`
returns true again. -/
theorem c10_counterexample :
    (nextPacketStep (newChannel 1 1)).2.sendQueueSize = 4294967295 ∧
    canSend (nextPacketStep (newChannel 1 1)).2 = false ∧
    canSend (sendBytes (nextPacketStep (newChannel 1 1)).2 [3]) = true := by
  decide

/-- C10 (amended).  `nextPacket` decrements `sendQueueSize` with wrapping
32-bit arithmetic: invoked outside the `isSendPending` protocol on a
channel with `sendQueueSize = 0`, empty `sending` and empty queue, it
emits a final EOF packet and wraps `sendQueueSize` to `4294967295`, after
which `canSend` returns false; the state is a fixpoint of `isSendPending`
(so no guarded `nextPacket` can fire and `canSend` stays false as long as
no enqueue occurs), but one subsequent enqueue wraps the counter to 0 and
makes `canSend` true again. -/
theorem c10_wrapping_decrement (ch : Channel)
    (h0 : ch.sendQueueSize = 0) (hs : ch.sending = [])
    (hq : ch.sendQueue = []) :
    (nextPacketStep ch).1.eof = 1 ∧
    (nextPacketStep ch).2.sendQueueSize = 4294967295 ∧
    canSend (nextPacketStep ch).2 = false ∧
    isSendPendingStep (nextPacketStep ch).2 = (false, (nextPacketStep ch).2) ∧
    (∀ bs, canSend (sendBytes (nextPacketStep ch).2 bs) = true) := by
  have hlen : ch.sending.length ≤ maxPacketSize := by
    simp [hs, maxPacketSize]
  refine ⟨?_, ?_, ?_, ?_, ?_⟩
  · simp [nextPacketStep, hlen]
  · simp [nextPacketStep, hlen, h0, u32Mod]
  · simp [canSend, loadSendQueueSize, nextPacketStep, hlen, h0, u32Mod,
      defaultSendQueueCapacity]
  · simp [isSendPendingStep, nextPacketStep, hlen, hq]
  · intro bs
    simp [canSend, loadSendQueueSize, sendBytes, nextPacketStep, hlen, h0, hq,
      u32Mod, defaultSendQueueCapacity]

/-- Witness for C10 (amended) at a fresh channel. -/
theorem c10_wrapping_decrement_witness :
    (nextPacketStep (newChannel 2 1)).2.sendQueueSize = 4294967295 ∧
    canSend (sendBytes (nextPacketStep (newChannel 2 1)).2 [5]) = true := by
  have h := c10_wrapping_decrement (newChannel 2 1) (by decide) (by decide)
    (by decide)
  exact ⟨h.2.1, h.2.2.2.2 [5]⟩

/-- C2 is violated by the source: `writePacketTo` adds the written byte
count to `recentlySent` only when `err != nil` (connection.go line 510);
on a successful write the counter is left unchanged.  Here a one-byte
message is written successfully (5 wire bytes) yet `recentlySent` stays
0. -/
theorem c2_recentlySent_not_credited :
    (writePacketTo ⟨1, [], 1, [], [7], 1, 0⟩ ⟨[], false⟩).2.2.2 = false ∧
    (writePacketTo ⟨1, [], 1, [], [7], 1, 0⟩ ⟨[], false⟩).2.2.1 = 5 ∧
    (writePacketTo ⟨1, [], 1, [], [7], 1, 0⟩ ⟨[], false⟩).1.recentlySent
      = 0 := by
  decide

/-- Helper: `isSendPending` with a message in flight is a no-op returning
true. -/
theorem isp_sending_ne {ch : Channel} (h : ch.sending ≠ []) :
    isSendPendingStep ch = (true, ch) := by
  simp [isSendPendingStep, List.length_eq_zero, h]

/-- Helper: `isSendPending` with nothing in flight and an empty queue is a
no-op returning false. -/
theorem isp_both_empty {ch : Channel} (h1 : ch.sending = [])
    (h2 : ch.sendQueue = []) : isSendPendingStep ch = (false, ch) := by
  simp [isSendPendingStep, h1, h2]

/-- Helper: `isSendPending` with nothing in flight and a non-empty queue
dequeues the head message into `sending` and returns true. -/
theorem isp_dequeue {ch : Channel} {m : List ℕ} {rest : List (List ℕ)}
    (h1 : ch.sending = []) (h2 : ch.sendQueue = m :: rest) :
    isSendPendingStep ch =
      (true, { ch with sending := m, sendQueue := rest }) := by
  simp [isSendPendingStep, h1, h2]

/-- Helper: the EOF branch of `nextPacket`. -/
theorem nextEof_state {ch : Channel} (h : ch.sending.length ≤ maxPacketSize) :
    (nextPacketStep ch).2 =
      { ch with sending := [],
                sendQueueSize := (ch.sendQueueSize + (u32Mod - 1)) % u32Mod } := by
  simp [nextPacketStep, h]

/-- Helper: the non-EOF branch of `nextPacket`. -/
theorem nextMore_state {ch : Channel}
    (h : ¬ ch.sending.length ≤ maxPacketSize) :
    (nextPacketStep ch).2 =
      { ch with sending := ch.sending.drop maxPacketSize } := by
  have hmin : min maxPacketSize ch.sending.length = maxPacketSize := by omega
  simp [nextPacketStep, h, hmin]

/-- Helper: wrapping `uint32` decrement of a positive in-range value is an
exact decrement. -/
theorem u32_dec (a : ℕ) (h1 : 0 < a) (h2 : a < u32Mod) :
    (a + (u32Mod - 1)) % u32Mod = a - 1 := by
  simp only [u32Mod] at h2 ⊢
  omega

/-- One channel operation, for interleavings of the four calls claim C6
quantifies over.  `send` is the blocking enqueue: it takes effect only
when the queue has room; on a full queue the caller stays parked and the
state is unchanged. -/
inductive COp where
  | send (bytes : List ℕ)
  | trySend (bytes : List ℕ)
  | pending
  | next
  deriving DecidableEq

/-- Apply one operation to a channel. -/
def applyOp (ch : Channel) : COp → Channel
  | .send bytes =>
    if ch.sendQueue.length < defaultSendQueueCapacity then sendBytes ch bytes
    else ch
  | .trySend bytes => (trySendBytes ch bytes).2
  | .pending => (isSendPendingStep ch).2
  | .next => (nextPacketStep ch).2

/-- Run a list of operations from a fresh channel. -/
def runOps (ops : List COp) : Channel := ops.foldl applyOp (newChannel 1 1)

/-- The channel accounting invariant of claim C6. -/
def chanInv (ch : Channel) : Prop :=
  ch.sendQueue.length + (if ch.sending = [] then 0 else 1) ≤ ch.sendQueueSize

instance (ch : Channel) : Decidable (chanInv ch) := by
  unfold chanInv
  infer_instance

/-- C6 fails as stated: in the interleaving `nextPacket; sendBytes`, the
wrapping decrement on the fresh channel sends `sendQueueSize` to
`2^32 - 1` and the following enqueue wraps it to 0 while the queue holds
one message, violating
`sendQueueSize ≥ len(sendQueue) + (1 if sending non-empty)`. -/
theorem c6_counterexample :
    (runOps [COp.next, COp.send [5]]).sendQueueSize = 0 ∧
    (runOps [COp.next, COp.send [5]]).sendQueue.length = 1 ∧
    ¬ chanInv (runOps [COp.next, COp.send [5]]) := by
  decide

/-- Guarded reachability for one channel: interleavings of `sendBytes`,
`trySendBytes`, `isSendPending` and `nextPacket` in which every
`nextPacket` call is immediately preceded by an `isSendPending` call
returning true (the protocol stated by the source comment "Call before
calling nextPacket()").  The first index counts completed enqueues, the
second counts emitted EOF packets.  A failed `trySendBytes` leaves the
state unchanged and needs no constructor. -/
inductive ReachG : ℕ → ℕ → Channel → Prop where
  | init (id pr : ℕ) : ReachG 0 0 (newChannel id pr)
  | send {n f : ℕ} {ch : Channel} (bytes : List ℕ) :
      ReachG n f ch → ch.sendQueue.length < defaultSendQueueCapacity →
      ReachG (n + 1) f (sendBytes ch bytes)
  | trySendOk {n f : ℕ} {ch : Channel} (bytes : List ℕ) :
      ReachG n f ch → (trySendBytes ch bytes).1 = true →
      ReachG (n + 1) f (trySendBytes ch bytes).2
  | pending {n f : ℕ} {ch : Channel} :
      ReachG n f ch → ReachG n f (isSendPendingStep ch).2
  | nextEof {n f : ℕ} {ch : Channel} :
      ReachG n f ch → (isSendPendingStep ch).1 = true →
      ((isSendPendingStep ch).2).sending.length ≤ maxPacketSize →
      ReachG n (f + 1) (nextPacketStep (isSendPendingStep ch).2).2
  | nextMore {n f : ℕ} {ch : Channel} :
      ReachG n f ch → (isSendPendingStep ch).1 = true →
      ¬ ((isSendPendingStep ch).2).sending.length ≤ maxPacketSize →
      ReachG n f (nextPacketStep (isSendPendingStep ch).2).2

/-- C6 (amended).  Under the guarded protocol, and with fewer than `2^32`
enqueues (`sendQueueSize` is a wrapping `uint32`, so an astronomically
long run could overflow it), the counter equals the number of enqueued
messages whose final EOF packet has not yet been emitted, dominates
`len(sendQueue) + (1 if sending non-empty)`, and is 0 exactly once every
enqueued message has had its final EOF packet emitted.  (Non-negativity
is inherent: the counter is a natural number below `2^32`.) -/
theorem c6_guarded_invariant (n f : ℕ) (ch : Channel) (h : ReachG n f ch)
    (hn : n < u32Mod) :
    f ≤ n ∧ ch.sendQueueSize = n - f ∧ chanInv ch ∧
    (f = n → ch.sendQueueSize = 0) := by
  have main : n < u32Mod → f ≤ n ∧ ch.sendQueueSize = n - f ∧ chanInv ch := by
    clear hn
    induction h with
    | init id pr =>
      intro _
      exact ⟨le_refl 0, rfl, by simp [chanInv, newChannel]⟩
    | send bytes hr hroom ih =>
      rename_i n1 f1 c1
      intro hn
      obtain ⟨h1, h2, h3⟩ := ih (by omega)
      unfold chanInv at h3 ⊢
      simp only [sendBytes, u32Mod] at hn h2 h3 ⊢
      simp only [List.length_append, List.length_cons, List.length_nil]
      refine ⟨by omega, by omega, by omega⟩
    | trySendOk bytes hr htrue ih =>
      rename_i n1 f1 c1
      intro hn
      obtain ⟨h1, h2, h3⟩ := ih (by omega)
      have hroom : c1.sendQueue.length < defaultSendQueueCapacity := by
        by_contra hc
        simp [trySendBytes, hc] at htrue
      have heq : (trySendBytes c1 bytes).2 = sendBytes c1 bytes := by
        simp [trySendBytes, hroom]
      rw [heq]
      unfold chanInv at h3 ⊢
      simp only [sendBytes, u32Mod] at hn h2 h3 ⊢
      simp only [List.length_append, List.length_cons, List.length_nil]
      refine ⟨by omega, by omega, by omega⟩
    | pending hr ih =>
      rename_i n1 f1 c1
      intro hn
      obtain ⟨h1, h2, h3⟩ := ih hn
      by_cases hsd : c1.sending = []
      · cases hqe : c1.sendQueue with
        | nil =>
          rw [isp_both_empty hsd hqe]
          exact ⟨h1, h2, h3⟩
        | cons m rest =>
          rw [isp_dequeue hsd hqe]
          unfold chanInv at h3 ⊢
          simp only [hqe, List.length_cons] at h3
          simp only [hsd, if_pos] at h3
          by_cases hm : m = [] <;> simp only [hm, if_pos rfl, if_neg] <;>
            simp [hm] <;> omega
      · rw [isp_sending_ne hsd]
        exact ⟨h1, h2, h3⟩
    | nextEof hr htrue hlen ih =>
      rename_i n1 f1 c1
      intro hn
      obtain ⟨h1, h2, h3⟩ := ih hn
      by_cases hsd : c1.sending = []
      · cases hqe : c1.sendQueue with
        | nil =>
          rw [isp_both_empty hsd hqe] at htrue
          simp at htrue
        | cons m rest =>
          rw [isp_dequeue hsd hqe] at hlen ⊢
          rw [nextEof_state hlen]
          unfold chanInv at h3 ⊢
          simp only [hqe, List.length_cons] at h3
          simp only [hsd, if_pos] at h3
          simp only [u32Mod] at hn ⊢
          simp <;> omega
      · rw [isp_sending_ne hsd] at hlen ⊢
        rw [nextEof_state hlen]
        unfold chanInv at h3 ⊢
        simp only [if_neg hsd] at h3
        simp only [u32Mod] at hn ⊢
        simp <;> omega
    | nextMore hr htrue hlenGt ih =>
      rename_i n1 f1 c1
      intro hn
      obtain ⟨h1, h2, h3⟩ := ih hn
      by_cases hsd : c1.sending = []
      · cases hqe : c1.sendQueue with
        | nil =>
          rw [isp_both_empty hsd hqe] at htrue
          simp at htrue
        | cons m rest =>
          rw [isp_dequeue hsd hqe] at hlenGt ⊢
          rw [nextMore_state hlenGt]
          have hne : m.drop maxPacketSize ≠ [] := by
            intro hdrop
            have hd := congrArg List.length hdrop
            simp only [List.length_drop, List.length_nil] at hd
            dsimp only at hlenGt
            omega
          unfold chanInv at h3 ⊢
          simp only [hqe, List.length_cons] at h3
          simp only [hsd, if_pos] at h3
          simp [hne] <;> omega
      · rw [isp_sending_ne hsd] at hlenGt ⊢
        rw [nextMore_state hlenGt]
        have hne : c1.sending.drop maxPacketSize ≠ [] := by
          intro hdrop
          have hd := congrArg List.length hdrop
          simp only [List.length_drop, List.length_nil] at hd
          dsimp only at hlenGt
          omega
        unfold chanInv at h3 ⊢
        simp only [if_neg hsd] at h3
        simp [hne] <;> omega
  obtain ⟨h1, h2, h3⟩ := main hn
  exact ⟨h1, h2, h3, fun hfe => by omega⟩

/-- Witness for C6 (amended): enqueue one message, dequeue it via
`isSendPending`, emit its final packet; the counter returns to 0 and the
invariant holds throughout the final state. -/
theorem c6_guarded_invariant_witness :
    (nextPacketStep (isSendPendingStep
        (sendBytes (newChannel 1 1) [5])).2).2.sendQueueSize = 0 := by
  have h := c6_guarded_invariant 1 1 _
    (ReachG.nextEof (ReachG.send [5] (ReachG.init 1 1) (by decide))
      (by decide) (by decide))
    (by decide)
  simpa using h.2.1

/-- Fuel-bounded floor base-2 logarithm on naturals; `fuel = n` always
suffices, and the fuel keeps the definition reducible by the kernel. -/
def log2fuel : ℕ → ℕ → ℕ
  | 0, _ => 0
  | fuel + 1, n => if 2 ≤ n then log2fuel fuel (n / 2) + 1 else 0

/-- Floor base-2 logarithm of a natural number (0 at 0). -/
def log2nat (n : ℕ) : ℕ := log2fuel n n

/-- Round `num / den` (with `den > 0`) to an integer, half to even — the
IEEE-754 default rounding used by Go float conversions and division. -/
def rne (num den : ℕ) : ℕ :=
  let q := num / den
  let r := num % den
  if 2 * r < den then q
  else if den < 2 * r then q + 1
  else if q % 2 = 0 then q else q + 1

/-- Floor base-2 logarithm of the positive fraction `a / b` (junk when
either argument is 0). -/
def floorLog2Frac (a b : ℕ) : ℤ :=
  if b ≤ a then (log2nat (a / b) : ℤ)
  else
    let j := log2nat (b / a)
    if b ≤ a * 2 ^ j then -(j : ℤ) else -(j : ℤ) - 1

/-- The IEEE-754 binary32 value nearest to the positive fraction `a / b`
(round to nearest, ties to even), represented exactly as the value scaled
by `2^149` — every finite binary32 value is an integer multiple of
`2^-149`, so this is an exact integer representation.  A value at or
below `2^-126` in magnitude uses the subnormal quantum `2^-149`; larger
values use the normal quantum `2^(e-23)`.  Overflow to infinity is not
modelled: every operand arising in this code is far below the binary32
overflow threshold. -/
def roundF32Pos (a b : ℕ) : ℕ :=
  let e := floorLog2Frac a b
  if -126 ≤ e then
    let shift := e - 23
    let m := if 0 ≤ shift then rne a (b * 2 ^ shift.toNat)
             else rne (a * 2 ^ (-shift).toNat) b
    m * 2 ^ (shift + 149).toNat
  else
    rne (a * 2 ^ 149) b

/-- The binary32 value nearest to `n / d` (`d > 0`), scaled by `2^149`,
with the sign handled symmetrically as IEEE rounding does. -/
def f32ofPair (n : ℤ) (d : ℕ) : ℤ :=
  if n = 0 then 0
  else if 0 < n then (roundF32Pos n.toNat d : ℤ)
  else -(roundF32Pos (-n).toNat d : ℤ)

/-- Go's `float32(i)` conversion of an integer, scaled by `2^149`. -/
def f32ofInt (i : ℤ) : ℤ := f32ofPair i 1

/-- Go's binary32 division of two finite binary32 values (given scaled by
`2^149`; the scales cancel in the quotient, which is then rounded to
binary32 again).  `sy = 0` cannot arise here: channel priorities are
strictly positive by construction (`newChannel` refuses priority 0). -/
def f32div (sx sy : ℤ) : ℤ :=
  if 0 ≤ sy then f32ofPair sx sy.toNat
  else f32ofPair (-sx) (-sy).toNat

/-- `math.MaxFloat32 = (2^24 - 1) * 2^104`, scaled by `2^149`. -/
def maxFloat32Scaled : ℤ := (2 ^ 24 - 1) * 2 ^ 253

/-- The scheduling key `float32(channel.recentlySent) /
float32(channel.priority)` computed in `sendPacket` (line 308), as the
exact scaled value of the binary32 result.  Comparison of finite binary32
values coincides with comparison of their exact values, hence with
comparison of these scaled integers. -/
def ratioF32 (ch : Channel) : ℤ :=
  f32div (f32ofInt ch.recentlySent) (f32ofInt (ch.priority : ℤ))

/-- `isSendPending` moves data between `sendQueue` and `sending` only, so
the scheduling key is unchanged by it. -/
theorem ratioF32_isp (ch : Channel) :
    ratioF32 (isSendPendingStep ch).2 = ratioF32 ch := by
  unfold ratioF32 isSendPendingStep
  split_ifs <;> rfl

/-- The channel-selection loop of `sendPacket` (lines 300-313): one pass
over the channel list, calling `isSendPending` on every channel (the call
dequeues into `sending` where needed, and its effect persists whether or
not the channel is chosen), skipping non-pending channels, and keeping
the first channel whose key is strictly below the running least key
`least` (initially `math.MaxFloat32`).  `i` is the index of the head of
`chs` within the full channel list and `best` the index of the current
least channel. -/
def selectGo : List Channel → ℕ → Option ℕ → ℤ → List Channel × Option ℕ
  | [], _, best, _ => ([], best)
  | ch :: rest, i, best, least =>
    if (isSendPendingStep ch).1 = true ∧
        ratioF32 (isSendPendingStep ch).2 < least then
      ((isSendPendingStep ch).2 ::
        (selectGo rest (i + 1) (some i)
          (ratioF32 (isSendPendingStep ch).2)).1,
       (selectGo rest (i + 1) (some i)
          (ratioF32 (isSendPendingStep ch).2)).2)
    else
      ((isSendPendingStep ch).2 :: (selectGo rest (i + 1) best least).1,
       (selectGo rest (i + 1) best least).2)

/-- Positional access with a default, by structural recursion (used both
by the embedded `sendPacket` for the selected-channel access and by the
selection specification). -/
def nthD {α : Type} : List α → ℕ → α → α
  | [], _, d => d
  | a :: _, 0, _ => a
  | _ :: rest, k + 1, d => nthD rest k d

theorem nthD_map_lt {α β : Type} (f : α → β) (l : List α) (d1 : β)
    (d2 : α) : ∀ k, k < l.length → nthD (l.map f) k d1 = f (nthD l k d2) := by
  induction l with
  | nil => intro k hk; simp at hk
  | cons a rest ih =>
    intro k hk
    cases k with
    | zero => rfl
    | succ k2 =>
      show nthD (rest.map f) k2 d1 = f (nthD rest k2 d2)
      exact ih k2 (by simpa using hk)

theorem nthD_mem {α : Type} (l : List α) (d : α) :
    ∀ k, k < l.length → nthD l k d ∈ l := by
  induction l with
  | nil => intro k hk; simp at hk
  | cons a rest ih =>
    intro k hk
    cases k with
    | zero => exact List.mem_cons_self a rest
    | succ k2 =>
      exact List.mem_cons_of_mem a (ih k2 (by simpa using hk))

/-- Placeholder channel for out-of-range list access (never reached: the
selected index is always in range). -/
def dfltChannel : Channel := newChannel 0 1

/-- `MConnection.sendPacket` (lines 297-332): select the least-key pending
channel; with none, report exhaustion without writing; otherwise write
one packet from the selected channel (a write error stops the connection
and also reports exhaustion). -/
def sendPacketStep (chs : List Channel) (w : BWriter) :
    List Channel × BWriter × Bool :=
  let sel := selectGo chs 0 none maxFloat32Scaled
  match sel.2 with
  | none => (sel.1, w, true)
  | some i =>
    let ch := nthD sel.1 i dfltChannel
    let r := writePacketTo ch w
    if r.2.2.2 then (sel.1.set i r.1, r.2.1, true)
    else (sel.1.set i r.1, r.2.1, false)

/-- The pending flag and scheduling key read by the selection loop. -/
def pendKey (ch : Channel) : Bool × ℤ :=
  ((isSendPendingStep ch).1, ratioF32 (isSendPendingStep ch).2)

theorem pendKey_fst (ch : Channel) :
    (pendKey ch).1 = (isSendPendingStep ch).1 := rfl

theorem pendKey_snd (ch : Channel) :
    (pendKey ch).2 = ratioF32 (isSendPendingStep ch).2 := rfl

/-- Reference first-minimum selection: the leftmost pending entry with the
least key, as index plus key. -/
def pickBest : List (Bool × ℤ) → Option (ℕ × ℤ)
  | [] => none
  | pr :: rest =>
    match pickBest rest with
    | none => if pr.1 = true then some (0, pr.2) else none
    | some (j, rb) =>
      if pr.1 = true ∧ pr.2 ≤ rb then some (0, pr.2) else some (j + 1, rb)

theorem pickBest_eq_none (l : List (Bool × ℤ))
    (h : ∀ pr ∈ l, pr.1 = false) : pickBest l = none := by
  induction l with
  | nil => rfl
  | cons pr rest ih =>
    have hr := ih (fun x hx => h x (List.mem_cons_of_mem pr hx))
    have hp : pr.1 = false := h pr (List.mem_cons_self pr rest)
    simp [pickBest, hr, hp]

theorem pickBest_none_all (l : List (Bool × ℤ)) :
    pickBest l = none → ∀ pr ∈ l, pr.1 = false := by
  induction l with
  | nil => intro _ pr hpr; simp at hpr
  | cons pr rest ih =>
    intro h x hx
    cases hpb : pickBest rest with
    | none =>
      simp only [pickBest, hpb] at h
      by_cases hp : pr.1 = true
      · simp [hp] at h
      · rcases List.mem_cons.mp hx with hh | hh
        · subst hh
          simpa using hp
        · exact ih hpb x hh
    | some pair =>
      simp only [pickBest, hpb] at h
      split_ifs at h <;> simp at h

theorem pickBest_some (l : List (Bool × ℤ)) :
    ∀ j r, pickBest l = some (j, r) →
      j < l.length ∧ nthD l j (false, 0) = (true, r) ∧
      (∀ k, k < l.length → (nthD l k (false, 0)).1 = true →
        r ≤ (nthD l k (false, 0)).2) ∧
      (∀ k, k < j → (nthD l k (false, 0)).1 = true →
        r < (nthD l k (false, 0)).2) := by
  induction l with
  | nil => intro j r h; simp [pickBest] at h
  | cons pr rest ih =>
    intro j r h
    cases hpb : pickBest rest with
    | none =>
      have hall := pickBest_none_all rest hpb
      simp only [pickBest, hpb] at h
      by_cases hp : pr.1 = true
      · rw [if_pos hp] at h
        simp only [Option.some.injEq, Prod.mk.injEq] at h
        obtain ⟨hj, hr⟩ := h
        subst hj
        subst hr
        refine ⟨by simp, ?_, ?_, ?_⟩
        · show pr = (true, pr.2)
          rw [← hp]
        · intro k hk hkp
          cases k with
          | zero => exact le_refl _
          | succ k2 =>
            have hkp2 : (nthD rest k2 (false, 0)).1 = true := hkp
            rw [hall (nthD rest k2 (false, 0))
              (nthD_mem rest (false, 0) k2 (by simpa using hk))] at hkp2
            exact absurd hkp2 (by simp)
        · intro k hk hkp
          omega
      · rw [if_neg hp] at h
        simp at h
    | some pair =>
      obtain ⟨jb, rb⟩ := pair
      obtain ⟨ih1, ih2, ih3, ih4⟩ := ih jb rb hpb
      simp only [pickBest, hpb] at h
      by_cases hcond : pr.1 = true ∧ pr.2 ≤ rb
      · rw [if_pos hcond] at h
        simp only [Option.some.injEq, Prod.mk.injEq] at h
        obtain ⟨hj, hr⟩ := h
        subst hj
        subst hr
        refine ⟨by simp, ?_, ?_, ?_⟩
        · show pr = (true, pr.2)
          rw [← hcond.1]
        · intro k hk hkp
          cases k with
          | zero => exact le_refl _
          | succ k2 =>
            have hkp2 : (nthD rest k2 (false, 0)).1 = true := hkp
            exact le_trans hcond.2 (ih3 k2 (by simpa using hk) hkp2)
        · intro k hk hkp
          omega
      · rw [if_neg hcond] at h
        simp only [Option.some.injEq, Prod.mk.injEq] at h
        obtain ⟨hj, hr⟩ := h
        subst hj
        subst hr
        have hnb : pr.1 = true → rb < pr.2 := by
          intro hp
          by_contra hc
          exact hcond ⟨hp, by omega⟩
        refine ⟨by simpa using ih1, ih2, ?_, ?_⟩
        · intro k hk hkp
          cases k with
          | zero => exact le_of_lt (hnb hkp)
          | succ k2 =>
            exact ih3 k2 (by simpa using hk) hkp
        · intro k hk hkp
          cases k with
          | zero => exact hnb hkp
          | succ k2 =>
            exact ih4 k2 (by omega) hkp

theorem selectGo_two_pos {ch : Channel} {rest : List Channel} {i : ℕ}
    {best : Option ℕ} {least : ℤ}
    (h : (isSendPendingStep ch).1 = true ∧
      ratioF32 (isSendPendingStep ch).2 < least) :
    (selectGo (ch :: rest) i best least).2 =
      (selectGo rest (i + 1) (some i)
        (ratioF32 (isSendPendingStep ch).2)).2 := by
  simp only [selectGo]
  rw [if_pos h]

theorem selectGo_two_neg {ch : Channel} {rest : List Channel} {i : ℕ}
    {best : Option ℕ} {least : ℤ}
    (h : ¬ ((isSendPendingStep ch).1 = true ∧
      ratioF32 (isSendPendingStep ch).2 < least)) :
    (selectGo (ch :: rest) i best least).2 =
      (selectGo rest (i + 1) best least).2 := by
  simp only [selectGo]
  rw [if_neg h]

theorem selectGo_fst (l : List Channel) :
    ∀ i best least, (selectGo l i best least).1 =
      l.map (fun ch => (isSendPendingStep ch).2) := by
  induction l with
  | nil => intro i best least; rfl
  | cons ch rest ih =>
    intro i best least
    by_cases hcond : (isSendPendingStep ch).1 = true ∧
        ratioF32 (isSendPendingStep ch).2 < least
    · simp only [selectGo]
      rw [if_pos hcond]
      simp [ih]
    · simp only [selectGo]
      rw [if_neg hcond]
      simp [ih]

theorem selectGo_snd_none (l : List Channel) :
    ∀ i best least, pickBest (l.map pendKey) = none →
      (selectGo l i best least).2 = best := by
  induction l with
  | nil => intro i best least _; rfl
  | cons ch rest ih =>
    intro i best least h
    have hsplit : (pendKey ch).1 = false ∧
        pickBest (rest.map pendKey) = none := by
      cases hpb : pickBest (rest.map pendKey) with
      | none =>
        simp only [List.map_cons, pickBest, hpb] at h
        by_cases hp : (pendKey ch).1 = true
        · rw [if_pos hp] at h
          simp at h
        · exact ⟨by simpa using hp, rfl⟩
      | some pair =>
        simp only [List.map_cons, pickBest, hpb] at h
        split_ifs at h <;> simp at h
    have hcond : ¬ ((isSendPendingStep ch).1 = true ∧
        ratioF32 (isSendPendingStep ch).2 < least) := by
      intro hc
      have hfalse := hsplit.1
      rw [pendKey_fst, hc.1] at hfalse
      simp at hfalse
    rw [selectGo_two_neg hcond]
    exact ih (i + 1) best least hsplit.2

theorem selectGo_snd_some (l : List Channel) :
    ∀ i best least j r, pickBest (l.map pendKey) = some (j, r) →
      (selectGo l i best least).2 =
        if r < least then some (i + j) else best := by
  induction l with
  | nil => intro i best least j r h; simp [pickBest] at h
  | cons ch rest ih =>
    intro i best least j r h
    cases hpb : pickBest (rest.map pendKey) with
    | none =>
      simp only [List.map_cons, pickBest, hpb] at h
      by_cases hp : (pendKey ch).1 = true
      · rw [if_pos hp] at h
        simp only [Option.some.injEq, Prod.mk.injEq] at h
        obtain ⟨hj, hr⟩ := h
        subst hj
        subst hr
        rw [pendKey_fst] at hp
        by_cases hlt : ratioF32 (isSendPendingStep ch).2 < least
        · rw [selectGo_two_pos ⟨hp, hlt⟩,
            selectGo_snd_none rest (i + 1) (some i) _ hpb]
          simp only [pendKey_snd]
          rw [if_pos hlt]
          simp
        · rw [selectGo_two_neg (fun hc => hlt hc.2),
            selectGo_snd_none rest (i + 1) best least hpb]
          simp only [pendKey_snd]
          rw [if_neg hlt]
      · rw [if_neg hp] at h
        simp at h
    | some pair =>
      obtain ⟨jb, rb⟩ := pair
      simp only [List.map_cons, pickBest, hpb] at h
      by_cases hcond : (pendKey ch).1 = true ∧ (pendKey ch).2 ≤ rb
      · rw [if_pos hcond] at h
        simp only [Option.some.injEq, Prod.mk.injEq] at h
        obtain ⟨hj, hr⟩ := h
        subst hj
        subst hr
        have hp : (isSendPendingStep ch).1 = true := hcond.1
        have hle : ratioF32 (isSendPendingStep ch).2 ≤ rb := hcond.2
        by_cases hlt : ratioF32 (isSendPendingStep ch).2 < least
        · rw [selectGo_two_pos ⟨hp, hlt⟩,
            ih (i + 1) (some i) _ jb rb hpb,
            if_neg (not_lt.mpr hle)]
          simp only [pendKey_snd]
          rw [if_pos hlt]
          simp
        · rw [selectGo_two_neg (fun hc => hlt hc.2),
            ih (i + 1) best least jb rb hpb,
            if_neg (fun hc => hlt (lt_of_le_of_lt hle hc))]
          simp only [pendKey_snd]
          rw [if_neg hlt]
      · rw [if_neg hcond] at h
        simp only [Option.some.injEq, Prod.mk.injEq] at h
        obtain ⟨hj, hr⟩ := h
        subst hj
        subst hr
        by_cases hp : (isSendPendingStep ch).1 = true
        · have hrlt : rb < ratioF32 (isSendPendingStep ch).2 := by
            by_contra hc
            exact hcond ⟨hp, not_lt.mp hc⟩
          by_cases hlt : ratioF32 (isSendPendingStep ch).2 < least
          · rw [selectGo_two_pos ⟨hp, hlt⟩,
              ih (i + 1) (some i) _ jb rb hpb,
              if_pos hrlt, if_pos (lt_trans hrlt hlt)]
            congr 1
            omega
          · rw [selectGo_two_neg (fun hc => hlt hc.2),
              ih (i + 1) best least jb rb hpb]
            by_cases hbl : rb < least
            · rw [if_pos hbl, if_pos hbl]
              congr 1
              omega
            · rw [if_neg hbl, if_neg hbl]
        · rw [selectGo_two_neg (fun hc => hp hc.1),
            ih (i + 1) best least jb rb hpb]
          by_cases hbl : rb < least
          · rw [if_pos hbl, if_pos hbl]
            congr 1
            omega
          · rw [if_neg hbl, if_neg hbl]

/-- On an unbroken writer, `writePacketTo` reports no error. -/
theorem writePacketTo_err (ch : Channel) (w : BWriter)
    (hw : w.broken = false) : (writePacketTo ch w).2.2.2 = false := by
  show ((nextPacketStep ch).1.writeTo
    (writeByteM (w, 0, false) packetTypeMessage)).2.2 = false
  rw [show writeByteM (w, 0, false) packetTypeMessage =
      (⟨w.buf ++ [packetTypeMessage], false⟩, 1, false) from by
    simp [writeByteM, hw]]
  rw [packet_writeTo_ok _ _ _ rfl]

theorem sendPacketStep_some {chs : List Channel} {w : BWriter} {j : ℕ}
    (h : (selectGo chs 0 none maxFloat32Scaled).2 = some j) :
    sendPacketStep chs w =
      (if (writePacketTo
            (nthD (selectGo chs 0 none maxFloat32Scaled).1 j dfltChannel)
            w).2.2.2 then
        ((selectGo chs 0 none maxFloat32Scaled).1.set j
          (writePacketTo
            (nthD (selectGo chs 0 none maxFloat32Scaled).1 j dfltChannel)
            w).1,
         (writePacketTo
            (nthD (selectGo chs 0 none maxFloat32Scaled).1 j dfltChannel)
            w).2.1,
         true)
      else
        ((selectGo chs 0 none maxFloat32Scaled).1.set j
          (writePacketTo
            (nthD (selectGo chs 0 none maxFloat32Scaled).1 j dfltChannel)
            w).1,
         (writePacketTo
            (nthD (selectGo chs 0 none maxFloat32Scaled).1 j dfltChannel)
            w).2.1,
         false)) := by
  simp only [sendPacketStep]
  rw [h]

/-- C5.  `sendPacket` calls `isSendPending` on every channel of the list
(the dequeue effect of each call persists) and considers exactly the
channels for which it returned true.  With no pending channel it returns
true ("exhausted") without writing.  Otherwise it writes one packet from
the unique pending channel whose binary32 key
`float32(recentlySent)/float32(priority)` is least — ties broken in
favor of the earlier channel — and returns false.  The hypotheses state
that the writer is healthy and that every key is below
`math.MaxFloat32` (true of every representable state: keys are
quotients of `float32(int64)` by `float32(uint) ≥ 1`). -/
theorem c5_sendPacket (chs : List Channel) (w : BWriter)
    (hw : w.broken = false)
    (hbound : ∀ ch ∈ chs, ratioF32 ch < maxFloat32Scaled) :
    ((∀ ch ∈ chs, (isSendPendingStep ch).1 = false) →
      sendPacketStep chs w =
        (chs.map (fun ch => (isSendPendingStep ch).2), w, true)) ∧
    ((∃ ch ∈ chs, (isSendPendingStep ch).1 = true) →
      ∃ i, i < chs.length ∧
        (isSendPendingStep (nthD chs i dfltChannel)).1 = true ∧
        (∀ k, k < chs.length →
          (isSendPendingStep (nthD chs k dfltChannel)).1 = true →
          ratioF32 (nthD chs i dfltChannel) ≤
            ratioF32 (nthD chs k dfltChannel)) ∧
        (∀ k, k < i →
          (isSendPendingStep (nthD chs k dfltChannel)).1 = true →
          ratioF32 (nthD chs i dfltChannel) <
            ratioF32 (nthD chs k dfltChannel)) ∧
        sendPacketStep chs w =
          ((chs.map (fun ch => (isSendPendingStep ch).2)).set i
            (writePacketTo
              (nthD (chs.map (fun ch => (isSendPendingStep ch).2)) i
                dfltChannel) w).1,
           (writePacketTo
              (nthD (chs.map (fun ch => (isSendPendingStep ch).2)) i
                dfltChannel) w).2.1,
           false)) := by
  constructor
  · intro hnone
    have hpbn : pickBest (chs.map pendKey) = none := by
      apply pickBest_eq_none
      intro pr hpr
      obtain ⟨ch, hch, hpr2⟩ := List.mem_map.mp hpr
      rw [← hpr2, pendKey_fst]
      exact hnone ch hch
    have hsel : (selectGo chs 0 none maxFloat32Scaled).2 = none :=
      selectGo_snd_none chs 0 none maxFloat32Scaled hpbn
    simp only [sendPacketStep]
    rw [hsel, selectGo_fst chs 0 none maxFloat32Scaled]
  · rintro ⟨chP, hchP, hpend⟩
    obtain ⟨pr0, hpb0⟩ :
        ∃ pr0, pickBest (chs.map pendKey) = some pr0 := by
      cases hpb2 : pickBest (chs.map pendKey) with
      | none =>
        have hfa := pickBest_none_all (chs.map pendKey) hpb2 (pendKey chP)
          (List.mem_map.mpr ⟨chP, hchP, rfl⟩)
        rw [pendKey_fst, hpend] at hfa
        exact absurd hfa (by simp)
      | some pr0 => exact ⟨pr0, rfl⟩
    obtain ⟨j, r⟩ := pr0
    obtain ⟨hjlen, hjget, hmin, hstrict⟩ :=
      pickBest_some (chs.map pendKey) j r hpb0
    have hjlen2 : j < chs.length := by simpa using hjlen
    have hjget2 : pendKey (nthD chs j dfltChannel) = (true, r) := by
      rw [← nthD_map_lt pendKey chs (false, 0) dfltChannel j hjlen2]
      exact hjget
    have hpendj : (isSendPendingStep (nthD chs j dfltChannel)).1 = true := by
      have h2 := congrArg Prod.fst hjget2
      rw [pendKey_fst] at h2
      exact h2
    have hratj : ratioF32 (nthD chs j dfltChannel) = r := by
      have h2 := congrArg Prod.snd hjget2
      rw [pendKey_snd, ratioF32_isp] at h2
      exact h2
    have hrmax : r < maxFloat32Scaled := by
      rw [← hratj]
      exact hbound _ (nthD_mem chs dfltChannel j hjlen2)
    have hsel : (selectGo chs 0 none maxFloat32Scaled).2 = some j := by
      rw [selectGo_snd_some chs 0 none maxFloat32Scaled j r hpb0,
        if_pos hrmax]
      simp
    refine ⟨j, hjlen2, hpendj, ?_, ?_, ?_⟩
    · intro k hk hkp
      have hkp2 : (nthD (chs.map pendKey) k (false, 0)).1 = true := by
        rw [nthD_map_lt pendKey chs (false, 0) dfltChannel k hk, pendKey_fst]
        exact hkp
      have hord := hmin k (by simpa using hk) hkp2
      rw [nthD_map_lt pendKey chs (false, 0) dfltChannel k hk, pendKey_snd,
        ratioF32_isp] at hord
      rw [hratj]
      exact hord
    · intro k hk hkp
      have hklen : k < chs.length := lt_trans hk hjlen2
      have hkp2 : (nthD (chs.map pendKey) k (false, 0)).1 = true := by
        rw [nthD_map_lt pendKey chs (false, 0) dfltChannel k hklen,
          pendKey_fst]
        exact hkp
      have hord := hstrict k hk hkp2
      rw [nthD_map_lt pendKey chs (false, 0) dfltChannel k hklen, pendKey_snd,
        ratioF32_isp] at hord
      rw [hratj]
      exact hord
    · rw [sendPacketStep_some hsel,
        selectGo_fst chs 0 none maxFloat32Scaled]
      rw [writePacketTo_err
        (nthD (chs.map fun ch => (isSendPendingStep ch).2) j dfltChannel)
        w hw]
      simp

/-- Concrete channels for the C5 witness: the first has a message in
flight and key 4, the second has a queued message and key 0. -/
def c5chsW : List Channel :=
  [⟨1, [], 1, [], [7], 1, 4⟩, ⟨2, [[8]], 1, [], [], 1, 0⟩]

/-- Witness for C5: with keys 4 and 0, the selection picks the second
channel and writes its packet. -/
theorem c5_sendPacket_witness :
    ∃ i, i < c5chsW.length ∧
      (isSendPendingStep (nthD c5chsW i dfltChannel)).1 = true ∧
      (∀ k, k < c5chsW.length →
        (isSendPendingStep (nthD c5chsW k dfltChannel)).1 = true →
        ratioF32 (nthD c5chsW i dfltChannel) ≤
          ratioF32 (nthD c5chsW k dfltChannel)) ∧
      (∀ k, k < i →
        (isSendPendingStep (nthD c5chsW k dfltChannel)).1 = true →
        ratioF32 (nthD c5chsW i dfltChannel) <
          ratioF32 (nthD c5chsW k dfltChannel)) ∧
      sendPacketStep c5chsW ⟨[], false⟩ =
        ((c5chsW.map (fun ch => (isSendPendingStep ch).2)).set i
          (writePacketTo
            (nthD (c5chsW.map (fun ch => (isSendPendingStep ch).2)) i
              dfltChannel) ⟨[], false⟩).1,
         (writePacketTo
            (nthD (c5chsW.map (fun ch => (isSendPendingStep ch).2)) i
              dfltChannel) ⟨[], false⟩).2.1,
         false) := by
  have h := c5_sendPacket c5chsW ⟨[], false⟩ rfl (by decide)
  exact h.2 ⟨⟨1, [], 1, [], [7], 1, 4⟩, by decide, by decide⟩

/-- Connection lifecycle flags and the error-callback counter: `stopped`
and `errored` are the atomic `uint32` flags of `MConnection` (booleans
here: the source only ever stores 0 or 1), and `onErrorCalls` counts
invocations of the `onError` callback. -/
structure ConnFlags where
  stopped : Bool
  errored : Bool
  onErrorCalls : ℕ
  deriving DecidableEq

/-- `MConnection.Stop` (lines 113-127), restricted to the flags: the
compare-and-swap makes every call after the first a no-op. -/
def stopConn (c : ConnFlags) : ConnFlags :=
  if c.stopped then c else { c with stopped := true }

/-- `MConnection.stopForError` (lines 151-158): stop the connection, then
invoke the error callback under the `errored` 0-to-1 compare-and-swap. -/
def stopForError (c : ConnFlags) : ConnFlags :=
  if (stopConn c).errored then stopConn c
  else ⟨(stopConn c).stopped, true, (stopConn c).onErrorCalls + 1⟩

/-- The packet-type dispatch of `recvRoutine` (lines 368-394), reduced to
whether it raises an unrecoverable protocol fault: an unknown packet-type
byte, or a MSG packet whose channel id is missing from `channelsIdx`.
Ping, pong and a MSG packet on a known channel proceed normally. -/
def dispatchFatal (knownIds : List ℕ) (pktType : ℕ) (pkt : Packet) : Bool :=
  if pktType = packetTypePing then false
  else if pktType = packetTypePong then false
  else if pktType = packetTypeMessage then
    (if pkt.chId ∈ knownIds then false else true)
  else true

/-- One receive-loop iteration through the `_recover` barrier (lines
143-149): a raised fault is converted into a `stopForError` call. -/
def recvIteration (knownIds : List ℕ) (pktType : ℕ) (pkt : Packet)
    (c : ConnFlags) : ConnFlags :=
  if dispatchFatal knownIds pktType pkt then stopForError c else c

/-- An event reaching the connection's error path: a received frame
dispatched by the receive loop, or a direct `stopForError` call (as from
the send loop's write failure). -/
inductive ConnEvent where
  | recv (pktType : ℕ) (pkt : Packet)
  | fault

/-- Apply one event to the connection flags. -/
def connStep (knownIds : List ℕ) (c : ConnFlags) : ConnEvent → ConnFlags
  | .recv t p => recvIteration knownIds t p c
  | .fault => stopForError c

/-- Run a sequence of events against a freshly created connection. -/
def runConn (knownIds : List ℕ) (evs : List ConnEvent) : ConnFlags :=
  evs.foldl (connStep knownIds) ⟨false, false, 0⟩

theorem stopForError_stopped (c : ConnFlags) :
    (stopForError c).stopped = true := by
  unfold stopForError stopConn
  split_ifs <;> simp_all

theorem stopForError_errored (c : ConnFlags) :
    (stopForError c).errored = true := by
  unfold stopForError stopConn
  split_ifs <;> simp_all

/-- The at-most-once discipline of the `errored` flag. -/
def connGood (c : ConnFlags) : Prop :=
  c.onErrorCalls ≤ 1 ∧ (c.errored = false → c.onErrorCalls = 0)

theorem stopForError_good {c : ConnFlags} (h : connGood c) :
    connGood (stopForError c) := by
  unfold connGood at h ⊢
  unfold stopForError stopConn
  split_ifs <;> simp_all

theorem runConn_good (ids : List ℕ) (evs : List ConnEvent) :
    ∀ c, connGood c → connGood (evs.foldl (connStep ids) c) := by
  induction evs with
  | nil => intro c h; exact h
  | cons e rest ih =>
    intro c h
    apply ih
    cases e with
    | recv t p =>
      show connGood (recvIteration ids t p c)
      unfold recvIteration
      by_cases hf : dispatchFatal ids t p = true
      · rw [if_pos hf]
        exact stopForError_good h
      · rw [if_neg hf]
        exact h
    | fault => exact stopForError_good h

/-- C8.  Protocol errors observed by the receive loop — an unknown
packet-type byte, or a MSG packet whose channel id has no channel in
`channelsIdx` — are fatal: the raised fault passes the recovery barrier
into `stopForError`, which stops the connection and sets `errored`; and
across any event sequence on one connection (receive-loop faults and
direct `stopForError` calls alike) the `onError` callback runs at most
once, guarded by the single 0-to-1 transition of `errored`. -/
theorem c8_protocol_errors (knownIds : List ℕ) :
    (∀ t pkt, t ≠ packetTypePing → t ≠ packetTypePong →
      t ≠ packetTypeMessage → dispatchFatal knownIds t pkt = true) ∧
    (∀ pkt : Packet, pkt.chId ∉ knownIds →
      dispatchFatal knownIds packetTypeMessage pkt = true) ∧
    (∀ t pkt c, dispatchFatal knownIds t pkt = true →
      (recvIteration knownIds t pkt c).stopped = true ∧
      (recvIteration knownIds t pkt c).errored = true) ∧
    (∀ evs, (runConn knownIds evs).onErrorCalls ≤ 1) := by
  refine ⟨?_, ?_, ?_, ?_⟩
  · intro t pkt h1 h2 h3
    simp [dispatchFatal, h1, h2, h3]
  · intro pkt h
    simp [dispatchFatal, packetTypePing, packetTypePong, packetTypeMessage, h]
  · intro t pkt c hf
    unfold recvIteration
    rw [if_pos hf]
    exact ⟨stopForError_stopped c, stopForError_errored c⟩
  · intro evs
    exact (runConn_good knownIds evs ⟨false, false, 0⟩
      ⟨by simp, fun _ => rfl⟩).1

/-- Witness for C8: an unknown packet type and an unknown channel id are
fatal, and three consecutive faulting events still invoke `onError` at
most once. -/
theorem c8_protocol_errors_witness :
    dispatchFatal [1] 3 ⟨0, 0, []⟩ = true ∧
    (recvIteration [1] 16 ⟨9, 0, []⟩ ⟨false, false, 0⟩).stopped = true ∧
    (runConn [1] [ConnEvent.recv 3 ⟨0, 0, []⟩, ConnEvent.fault,
      ConnEvent.recv 16 ⟨9, 0, []⟩]).onErrorCalls ≤ 1 := by
  have h := c8_protocol_errors [1]
  exact ⟨h.1 3 ⟨0, 0, []⟩ (by decide) (by decide) (by decide),
    (h.2.2.1 16 ⟨9, 0, []⟩ ⟨false, false, 0⟩ (h.2.1 ⟨9, 0, []⟩ (by decide))).1,
    h.2.2.2 _⟩

end TMConn
